import Mathlib

/- Verification of the SOAP optimizer (src/soap.py).

   Shallow embedding conventions:
   * A tensor of rank k is a function from flat index sequences `ℕ → ℕ` to `ℚ`;
     only the first k positions of an index sequence are meaningful, and the
     shape (list of axis sizes) is carried separately, mirroring how the
     Python code passes `grad.shape` implicitly through torch tensors.
   * A matrix is `ℕ → ℕ → ℚ` with its size carried separately.
   * Scalars are `ℚ` (exact arithmetic model of the float computations).
   * The external linear-algebra backend (`torch.linalg.eigh`,
     `torch.linalg.qr`) and the scalar/elementwise square root are modelled
     as parameters (`Backend`), since they are external capabilities, not
     code of this repository. -/

abbrev Tensor : Type := (ℕ → ℕ) → ℚ

abbrev Mat : Type := ℕ → ℕ → ℚ

/-- Prepend a value to an index sequence: position 0 becomes `a`, position
`j + 1` becomes `idx j`. -/
def idxCons (a : ℕ) (idx : ℕ → ℕ) : ℕ → ℕ := fun j => if j = 0 then a else idx (j - 1)

/-- Overwrite position `i` of an index sequence with `v`. -/
def updAt (i v : ℕ) (idx : ℕ → ℕ) : ℕ → ℕ := fun j => if j = i then v else idx j

/-- Insert value `v` at position `i`, shifting later positions up. -/
def insertAt (i v : ℕ) (rest : ℕ → ℕ) : ℕ → ℕ :=
  fun j => if j < i then rest j else if j = i then v else rest (j - 1)

/-- Index sequence that reads `a` below `m` and `idx` (shifted) from `m` on. -/
def mixIdx (m : ℕ) (a idx : ℕ → ℕ) : ℕ → ℕ := fun j => if j < m then a j else idx (j - m)

def zerosT : Tensor := fun _ => 0

def zeroMat : Mat := fun _ _ => 0

def dfltQ : ℕ × Mat := (0, zeroMat)

def idMat : Mat := fun a b => if a = b then 1 else 0

/-- In-place `x.lerp_(y, w)` of torch: `x + w * (y - x)`. -/
def lerpT (x y : Tensor) (w : ℚ) : Tensor := fun i => x i + w * (y i - x i)

/-- Matrix version of torch `lerp_`. -/
def lerpM (x y : Mat) (w : ℚ) : Mat := fun a b => x a b + w * (y a b - x a b)

/-- Elementwise square, `t.square()`. -/
def squareT (x : Tensor) : Tensor := fun i => x i * x i

/-- Product of two `d × d` matrices. -/
def matMul (d : ℕ) (A B : Mat) : Mat := fun i j => ∑ l in Finset.range d, A i l * B l j

def transposeM (A : Mat) : Mat := fun i j => A j i

/-- Sum of `f` over all multi-indices bounded by the axis sizes `ds`
(positions beyond `ds.length` are read as 0). -/
def multiSum : List ℕ → ((ℕ → ℕ) → ℚ) → ℚ
  | [], f => f (fun _ => 0)
  | d :: ds, f => ∑ a in Finset.range d, multiSum ds (fun rest => f (idxCons a rest))

/-- `torch.tensordot(T, T, dims = [all axes except i] * 2)` from
`SOAP.update_preconditioner`: the square matrix contracting `T` with itself
over every axis except axis `i`. -/
def outerContract (shape : List ℕ) (i : ℕ) (T : Tensor) : Mat :=
  fun a b => multiSum (shape.eraseIdx i)
    (fun rest => T (insertAt i a rest) * T (insertAt i b rest))

/-- `torch.tensordot(T, Q, dims=[[0], [0]])` on a rank-`k` tensor: consume
the leading axis (of size `d`), append the resulting axis at the end
(position `k - 1` of the new index). -/
def contractFwd (k d : ℕ) (Q : Mat) (T : Tensor) : Tensor :=
  fun idx => ∑ a in Finset.range d, T (idxCons a idx) * Q a (idx (k - 1))

/-- `torch.tensordot(T, Q, dims=[[0], [1]])`: same as `contractFwd` but
contracting against the second index of `Q`. -/
def contractBwd (k d : ℕ) (Q : Mat) (T : Tensor) : Tensor :=
  fun idx => ∑ a in Finset.range d, T (idxCons a idx) * Q (idx (k - 1)) a

/-- `SOAP.project`: successively contract a rank-`k` tensor against each
eigenbasis matrix (paired with its size) using the matrix's first index. -/
def project (k : ℕ) (qs : List (ℕ × Mat)) (T : Tensor) : Tensor :=
  qs.foldl (fun acc dq => contractFwd k dq.1 dq.2 acc) T

/-- `SOAP.project_back`: successively contract against each eigenbasis
matrix using the matrix's second index. -/
def projectBack (k : ℕ) (qs : List (ℕ × Mat)) (T : Tensor) : Tensor :=
  qs.foldl (fun acc dq => contractBwd k dq.1 dq.2 acc) T

/-- A tensor of rank `k` only reads the first `k` positions of its index. -/
def Supported (k : ℕ) (T : Tensor) : Prop :=
  ∀ f g : ℕ → ℕ, (∀ j, j < k → f j = g j) → T f = T g

/-- External linear-algebra backend and scalar square root
(`torch.linalg.eigh`, `torch.linalg.qr`, `sqrt`): capabilities consumed by
the optimizer, not code of this repository. `eigh d m` returns the
eigenvector matrix of the `d × d` symmetric matrix `m` (columns in
ascending eigenvalue order, the torch convention); `qr d m` returns the
orthonormal factor of the `d × d` matrix `m`. -/
structure Backend where
  sqrtFn : ℚ → ℚ
  eigh : ℕ → Mat → Mat
  qr : ℕ → Mat → Mat

/-- Hyperparameters of a parameter group (`defaults` in `SOAP.__init__`). -/
structure Hyp where
  lr : ℚ
  beta1 : ℚ
  beta2 : ℚ
  shampoo_beta : ℚ
  eps : ℚ
  precondition_frequency : ℕ

/-- Per-parameter optimizer state (`self.state[p]` after the first step has
populated its keys).  `Q = none` models Python `state['Q'] is None`. -/
structure PState where
  step : ℕ
  exp_avg : Tensor
  exp_avg_sq : Tensor
  GG : List Mat
  Q : Option (List Mat)
  precondition_frequency : ℕ
  shampoo_beta : ℚ

/-- Jitter constant `1e-30` added to the diagonal before `eigh`. -/
def jitterC : ℚ := 1 / 10 ^ 30

/-- `m + 1e-30 * torch.eye(m.shape[0])`. -/
def addJitter (m : Mat) : Mat := fun a b => m a b + (if a = b then jitterC else 0)

/-- `torch.flip(Q, [1])` on a `d × d` matrix: reverse the column order. -/
def flipCols (d : ℕ) (Q : Mat) : Mat := fun a b => Q a (d - 1 - b)

/-- `SOAP.get_orthogonal_matrix`: eigendecomposition of each jittered
covariance accumulator, columns flipped to descending eigenvalue order. -/
def getOrthogonalMatrix (B : Backend) (shape : List ℕ) (gg : List Mat) : List Mat :=
  (shape.zip gg).map (fun dm => flipCols dm.1 (B.eigh dm.1 (addJitter dm.2)))

/-- Estimated eigenvalues `diag(o.T @ m @ o)` for a `d × d` pair. -/
def estEig (d : ℕ) (m o : Mat) : ℕ → ℚ :=
  fun i => ∑ a in Finset.range d, ∑ b in Finset.range d, o a i * m a b * o b i

/-- `torch.argsort(v, descending=True)` on a length-`d` vector, as the map
from output position to input index. -/
def argsortDesc (d : ℕ) (v : ℕ → ℚ) : ℕ → ℕ :=
  fun j => ((List.range d).mergeSort (fun a b => decide (v b ≤ v a))).getD j 0

/-- Reorder the columns of a matrix by `o[:, σ]`. -/
def permCols (σ : ℕ → ℕ) (o : Mat) : Mat := fun a b => o a (σ b)

/-- `t.index_select(ind, σ)`: reorder a tensor along axis `ind` by `σ`. -/
def axisPermute (ind : ℕ) (σ : ℕ → ℕ) (T : Tensor) : Tensor :=
  fun idx => T (updAt ind (σ (idx ind)) idx)

/-- One iteration of the loop body of `SOAP.get_orthogonal_matrix_QR`
(axis `ind`, size `d`, covariance `m`, current basis `o`, threaded
`exp_avg_sq`): estimate eigenvalues, argsort them descending, permute
`exp_avg_sq` along `ind` and the columns of `o` by that argsort, run one
power-iteration step and re-orthonormalize by QR. -/
def qrStep (B : Backend) (ind d : ℕ) (m o : Mat) (sq : Tensor) : Mat × Tensor :=
  let est_eig := fun i => ∑ a in Finset.range d, ∑ b in Finset.range d, o a i * m a b * o b i
  let sort_idx := fun j =>
    ((List.range d).mergeSort (fun a b => decide (est_eig b ≤ est_eig a))).getD j 0
  let sq' := fun idx => sq (updAt ind (sort_idx (idx ind)) idx)
  let o' := fun a b => o a (sort_idx b)
  let power_iter := matMul d m o'
  (B.qr d power_iter, sq')

/-- `SOAP.get_orthogonal_matrix_QR`: fold `qrStep` over the axes, threading
the permuted `exp_avg_sq`; returns the new eigenbasis list and the
re-aligned `exp_avg_sq`. -/
def getOrthogonalMatrixQR (B : Backend) (shape : List ℕ) (st : PState) : List Mat × Tensor :=
  let orth_list := st.Q.getD []
  (List.range shape.length).foldl
    (fun acc ind =>
      let r := qrStep B ind (shape.getD ind 0) (st.GG.getD ind zeroMat)
        (orth_list.getD ind zeroMat) acc.2
      (acc.1 ++ [r.1], r.2))
    ([], st.exp_avg_sq)

/-- The covariance-blending loop of `SOAP.update_preconditioner` (lines
130-133): for every axis, `GG[idx].lerp_(outer_product, 1 - shampoo_beta)`. -/
def covUpdate (shape : List ℕ) (grad : Tensor) (st : PState) : PState :=
  { st with GG := (List.range shape.length).map (fun i =>
      lerpM (st.GG.getD i zeroMat) (outerContract shape i grad) (1 - st.shampoo_beta)) }

/-- Lines 134-135 of src/soap.py: build the eigenbasis by full
eigendecomposition when `state['Q'] is None`. -/
def maybeInitQ (B : Backend) (shape : List ℕ) (st : PState) : PState :=
  match st.Q with
  | none => { st with Q := some (getOrthogonalMatrix B shape st.GG) }
  | some _ => st

/-- Lines 136-137 of src/soap.py: run the periodic QR refresh when
`step > 0` and `step % precondition_frequency == 0`. -/
def maybeRefresh (B : Backend) (shape : List ℕ) (st : PState) : PState :=
  if 0 < st.step ∧ st.step % st.precondition_frequency = 0 then
    { st with
      Q := some ((getOrthogonalMatrixQR B shape st).1)
      exp_avg_sq := (getOrthogonalMatrixQR B shape st).2 }
  else st

/-- `SOAP.update_preconditioner`: blend each covariance accumulator with the
per-axis outer product of the gradient, build the eigenbasis by full
decomposition if it is still unset, then run the periodic QR refresh when
`step > 0` and `step % precondition_frequency == 0`. -/
def updatePreconditioner (B : Backend) (shape : List ℕ) (grad : Tensor) (st : PState) : PState :=
  maybeRefresh B shape (maybeInitQ B shape (covUpdate shape grad st))

/-- Denominator tensor `exp_avg_sq.sqrt().add_(eps)`. -/
def denomT (B : Backend) (eps : ℚ) (sq : Tensor) : Tensor := fun idx => B.sqrtFn (sq idx) + eps

/-- The state created on the first observed gradient (lines 56-72 of
src/soap.py, before `update_preconditioner` runs): `step = 0`, zero
moments, zero covariance accumulators, eigenbasis unset, and the effective
shampoo decay (`shampoo_beta` if non-negative, else `beta2`). -/
def freshState (H : Hyp) (shape : List ℕ) : PState :=
  { step := 0, exp_avg := zerosT, exp_avg_sq := zerosT,
    GG := shape.map (fun _ => zeroMat), Q := none,
    precondition_frequency := H.precondition_frequency,
    shampoo_beta := if 0 ≤ H.shampoo_beta then H.shampoo_beta else H.beta2 }

/-- The projected-Adam phase of `SOAP.step` for an initialized state
(lines 76-103 of src/soap.py): everything the step does before
`update_preconditioner`, i.e. the moment updates, the bias-corrected
parameter update, and the step-count increment.  Returns the new parameter
value and the state as it stands when `update_preconditioner` is entered. -/
def adamPhase (H : Hyp) (B : Backend) (shape : List ℕ) (qs : List Mat)
    (grad p : Tensor) (st : PState) : Tensor × PState :=
  let k := shape.length
  let sized := shape.zip qs
  let grad_projected := project k sized grad
  let step' := st.step + 1
  let exp_avg' := lerpT st.exp_avg grad (1 - H.beta1)
  let exp_avg_sq' := lerpT st.exp_avg_sq (squareT grad_projected) (1 - H.beta2)
  let exp_avg_projected := project k sized exp_avg'
  let bias_correction1 : ℚ := 1 - H.beta1 ^ step'
  let bias_correction2 : ℚ := 1 - H.beta2 ^ step'
  let step_size := H.lr * B.sqrtFn bias_correction2 / bias_correction1
  let denom := denomT B H.eps exp_avg_sq'
  let norm_grad := projectBack k sized (fun idx => exp_avg_projected idx / denom idx)
  let p' := fun idx => p idx + (-step_size) * norm_grad idx
  (p', { st with step := step', exp_avg := exp_avg', exp_avg_sq := exp_avg_sq' })

/-- One pass of the body of `SOAP.step` for a single parameter: `gradOpt`
is `p.grad` (absent gradients are skipped), `stOpt = none` models a state
dict whose keys have not yet been created.  Returns the new parameter value
and the new state.  (An initialized state always has `Q = some _`; the
defensive `Q = none` branch is unreachable from states this function
produces.) -/
def stepOne (H : Hyp) (B : Backend) (shape : List ℕ) (gradOpt : Option Tensor)
    (p : Tensor) (stOpt : Option PState) : Tensor × Option PState :=
  match gradOpt with
  | none => (p, stOpt)
  | some grad =>
    match stOpt with
    | none =>
      (p, some (updatePreconditioner B shape grad (freshState H shape)))
    | some st =>
      match st.Q with
      | none => (p, some st)
      | some qs =>
        let k := shape.length
        let sized := shape.zip qs
        let grad_projected := project k sized grad
        let step' := st.step + 1
        let exp_avg' := lerpT st.exp_avg grad (1 - H.beta1)
        let exp_avg_sq' := lerpT st.exp_avg_sq (squareT grad_projected) (1 - H.beta2)
        let exp_avg_projected := project k sized exp_avg'
        let bias_correction1 : ℚ := 1 - H.beta1 ^ step'
        let bias_correction2 : ℚ := 1 - H.beta2 ^ step'
        let step_size := H.lr * B.sqrtFn bias_correction2 / bias_correction1
        let denom := denomT B H.eps exp_avg_sq'
        let norm_grad := projectBack k sized (fun idx => exp_avg_projected idx / denom idx)
        let p' := fun idx => p idx + (-step_size) * norm_grad idx
        let st' : PState := { st with step := step', exp_avg := exp_avg', exp_avg_sq := exp_avg_sq' }
        (p', some (updatePreconditioner B shape grad st'))

/-- Repeated invocations of `SOAP.step` on one parameter: each list entry is
the gradient present (or absent) at that call. -/
def runSteps (H : Hyp) (B : Backend) (shape : List ℕ) (grads : List (Option Tensor))
    (start : Tensor × Option PState) : Tensor × Option PState :=
  grads.foldl (fun acc g => stepOne H B shape g acc.1 acc.2) start

/- Concrete instances used to evaluate the model on small inputs. -/

/-- The default hyperparameters of `SOAP.__init__`. -/
def H0 : Hyp :=
  { lr := 3 / 1000, beta1 := 19 / 20, beta2 := 19 / 20, shampoo_beta := -1,
    eps := 1 / 100000000, precondition_frequency := 10 }

/-- A concrete backend: identity square root, identity-matrix valued
decompositions. -/
def B0 : Backend :=
  { sqrtFn := fun x => x, eigh := fun _ _ => idMat, qr := fun _ _ => idMat }

/-- A constant gradient tensor with every entry 3. -/
def g3 : Tensor := fun _ => 3

/-- Fallback state used only as an `Option.getD` default. -/
def pstDflt : PState :=
  { step := 0, exp_avg := zerosT, exp_avg_sq := zerosT, GG := [], Q := none,
    precondition_frequency := 10, shampoo_beta := 0 }

/-- A rank-1 supported tensor reading its first index position. -/
def Tlin : Tensor := fun f => (f 0 : ℚ)

/-- The all-zero index sequence. -/
def zeroIdx : ℕ → ℕ := fun _ => 0

/-- A concrete initialized state of shape `[1]`: one step taken, identity
eigenbasis. -/
def pst1 : PState :=
  { step := 1, exp_avg := zerosT, exp_avg_sq := zerosT, GG := [zeroMat],
    Q := some [idMat], precondition_frequency := 10, shampoo_beta := 19 / 20 }

/-- A concrete initialized state of shape `[1]` whose next refresh fires
(`step = 10`, frequency 10). -/
def pst10 : PState :=
  { step := 10, exp_avg := zerosT, exp_avg_sq := zerosT, GG := [zeroMat],
    Q := some [idMat], precondition_frequency := 10, shampoo_beta := 19 / 20 }

/- Helper lemmas about index mixing and multi-index sums. -/

theorem mixIdx_zero (a idx : ℕ → ℕ) : mixIdx 0 a idx = idx := by
  funext j
  simp [mixIdx]

theorem mixIdx_succ_cons (m : ℕ) (b : ℕ) (a idx : ℕ → ℕ) :
    mixIdx (m + 1) (idxCons b a) idx = idxCons b (mixIdx m a idx) := by
  funext j
  cases j with
  | zero => simp [mixIdx, idxCons]
  | succ j' =>
      simp only [mixIdx, idxCons, Nat.succ_ne_zero, if_false, Nat.succ_sub_one]
      by_cases hj : j' < m
      · rw [if_pos (by omega), if_pos hj]
      · rw [if_neg (by omega), if_neg hj]
        congr 1
        omega

theorem multiSum_sum_comm (ds : List ℕ) (s : Finset ℕ) (F : ℕ → (ℕ → ℕ) → ℚ) :
    multiSum ds (fun a => ∑ b in s, F b a) = ∑ b in s, multiSum ds (fun a => F b a) := by
  induction ds generalizing F with
  | nil => rfl
  | cons d ds ih =>
      show (∑ a0 in Finset.range d, multiSum ds fun rest => ∑ b in s, F b (idxCons a0 rest)) = _
      calc (∑ a0 in Finset.range d, multiSum ds fun rest => ∑ b in s, F b (idxCons a0 rest))
          = ∑ a0 in Finset.range d, ∑ b in s,
              multiSum ds (fun rest => F b (idxCons a0 rest)) := by
            exact Finset.sum_congr rfl (fun a0 _ => ih _)
        _ = ∑ b in s, ∑ a0 in Finset.range d,
              multiSum ds (fun rest => F b (idxCons a0 rest)) := Finset.sum_comm
        _ = _ := rfl

theorem multiSum_mul_left (ds : List ℕ) (c : ℚ) (f : (ℕ → ℕ) → ℚ) :
    multiSum ds (fun a => c * f a) = c * multiSum ds f := by
  induction ds generalizing f with
  | nil => rfl
  | cons d ds ih =>
      show (∑ a0 in Finset.range d, multiSum ds fun rest => c * f (idxCons a0 rest)) =
        c * ∑ a0 in Finset.range d, multiSum ds (fun rest => f (idxCons a0 rest))
      rw [Finset.mul_sum]
      exact Finset.sum_congr rfl (fun a0 _ => ih _)

theorem multiSum_mul_right (ds : List ℕ) (c : ℚ) (f : (ℕ → ℕ) → ℚ) :
    multiSum ds (fun a => f a * c) = multiSum ds f * c := by
  have h : ∀ a, f a * c = c * f a := fun a => mul_comm _ _
  calc multiSum ds (fun a => f a * c) = multiSum ds (fun a => c * f a) := by
        exact congrArg _ (funext fun a => h a)
    _ = c * multiSum ds f := multiSum_mul_left ds c f
    _ = multiSum ds f * c := mul_comm _ _

theorem multiSum_multiSum_comm (ds es : List ℕ) (F : (ℕ → ℕ) → (ℕ → ℕ) → ℚ) :
    multiSum ds (fun a => multiSum es (fun b => F a b)) =
      multiSum es (fun b => multiSum ds (fun a => F a b)) := by
  induction ds generalizing F with
  | nil => rfl
  | cons d ds ih =>
      show (∑ a0 in Finset.range d, multiSum ds fun rest => multiSum es fun b => F (idxCons a0 rest) b) = _
      calc (∑ a0 in Finset.range d, multiSum ds fun rest => multiSum es fun b => F (idxCons a0 rest) b)
          = ∑ a0 in Finset.range d,
              multiSum es (fun b => multiSum ds (fun rest => F (idxCons a0 rest) b)) := by
            exact Finset.sum_congr rfl (fun a0 _ => ih _)
        _ = multiSum es (fun b => ∑ a0 in Finset.range d,
              multiSum ds (fun rest => F (idxCons a0 rest) b)) := by
            exact (multiSum_sum_comm es _ _).symm
        _ = _ := rfl

/-- Multi-indices produced by `multiSum` are in range below `ds.length` and
zero from `ds.length` on. -/
def inRangeIdx (ds : List ℕ) (a : ℕ → ℕ) : Prop :=
  (∀ i, i < ds.length → a i < ds.getD i 0) ∧ (∀ i, ds.length ≤ i → a i = 0)

theorem multiSum_congr (ds : List ℕ) (f g : (ℕ → ℕ) → ℚ)
    (h : ∀ a, inRangeIdx ds a → f a = g a) :
    multiSum ds f = multiSum ds g := by
  induction ds generalizing f g with
  | nil =>
      show f (fun _ => 0) = g (fun _ => 0)
      exact h _ ⟨fun i hi => absurd hi (by simp), fun i _ => rfl⟩
  | cons d ds ih =>
      refine Finset.sum_congr rfl (fun a0 ha0 => ?_)
      refine ih _ _ (fun rest hrest => ?_)
      refine h _ ⟨fun i hi => ?_, fun i hi => ?_⟩
      · simp only [List.length_cons] at hi
        cases i with
        | zero =>
            simpa [idxCons] using Finset.mem_range.mp ha0
        | succ i' =>
            have hlt : i' < ds.length := by omega
            simpa [idxCons] using hrest.1 i' hlt
      · simp only [List.length_cons] at hi
        cases i with
        | zero => omega
        | succ i' =>
            have hge : ds.length ≤ i' := by omega
            simpa [idxCons] using hrest.2 i' hge

theorem multiSum_prod (ds : List ℕ) (g : ℕ → ℕ → ℚ) :
    multiSum ds (fun a => ∏ i in Finset.range ds.length, g i (a i)) =
      ∏ i in Finset.range ds.length, ∑ x in Finset.range (ds.getD i 0), g i x := by
  induction ds generalizing g with
  | nil => simp [multiSum]
  | cons d ds ih =>
      show (∑ a0 in Finset.range d, multiSum ds fun rest =>
          ∏ i in Finset.range (ds.length + 1), g i (idxCons a0 rest i)) = _
      have hsplit : ∀ (a0 : ℕ) (rest : ℕ → ℕ),
          (∏ i in Finset.range (ds.length + 1), g i (idxCons a0 rest i)) =
            (∏ i in Finset.range ds.length, g (i + 1) (rest i)) * g 0 a0 := by
        intro a0 rest
        rw [Finset.prod_range_succ']
        have hshift : ∀ i : ℕ, idxCons a0 rest (i + 1) = rest i := fun i => by simp [idxCons]
        simp only [hshift]
        simp [idxCons]
      calc (∑ a0 in Finset.range d, multiSum ds fun rest =>
              ∏ i in Finset.range (ds.length + 1), g i (idxCons a0 rest i))
          = ∑ a0 in Finset.range d, multiSum ds (fun rest =>
              (∏ i in Finset.range ds.length, g (i + 1) (rest i)) * g 0 a0) := by
            exact Finset.sum_congr rfl (fun a0 _ =>
              congrArg _ (funext fun rest => hsplit a0 rest))
        _ = ∑ a0 in Finset.range d,
              (multiSum ds (fun rest => ∏ i in Finset.range ds.length, g (i + 1) (rest i))) * g 0 a0 := by
            exact Finset.sum_congr rfl (fun a0 _ => multiSum_mul_right ds _ _)
        _ = (multiSum ds (fun rest => ∏ i in Finset.range ds.length, g (i + 1) (rest i))) *
              (∑ a0 in Finset.range d, g 0 a0) := by
            rw [← Finset.mul_sum]
        _ = (∏ i in Finset.range ds.length, ∑ x in Finset.range (ds.getD i 0), g (i + 1) x) *
              (∑ a0 in Finset.range d, g 0 a0) := by
            rw [ih]
        _ = ∏ i in Finset.range (ds.length + 1), ∑ x in Finset.range ((d :: ds).getD i 0), g i x := by
            rw [Finset.prod_range_succ']
            rfl

theorem multiSum_delta (ds : List ℕ) (idx : ℕ → ℕ)
    (hidx : ∀ i, i < ds.length → idx i < ds.getD i 0) (f : (ℕ → ℕ) → ℚ) :
    multiSum ds (fun a => f a * ∏ i in Finset.range ds.length,
        (if a i = idx i then (1 : ℚ) else 0)) =
      f (fun j => if j < ds.length then idx j else 0) := by
  induction ds generalizing idx f with
  | nil =>
      show f (fun _ => 0) * 1 = f _
      rw [mul_one]
      exact congrArg f (funext fun j => by simp)
  | cons d ds ih =>
      show (∑ a0 in Finset.range d, multiSum ds fun rest =>
          f (idxCons a0 rest) * ∏ i in Finset.range (ds.length + 1),
            (if idxCons a0 rest i = idx i then (1 : ℚ) else 0)) = _
      have hsplit : ∀ (a0 : ℕ) (rest : ℕ → ℕ),
          (f (idxCons a0 rest) * ∏ i in Finset.range (ds.length + 1),
            (if idxCons a0 rest i = idx i then (1 : ℚ) else 0)) =
          (f (idxCons a0 rest) * ∏ i in Finset.range ds.length,
            (if rest i = idx (i + 1) then (1 : ℚ) else 0)) *
            (if a0 = idx 0 then (1 : ℚ) else 0) := by
        intro a0 rest
        rw [Finset.prod_range_succ']
        have h1 : (∏ i in Finset.range ds.length,
            (if idxCons a0 rest (i + 1) = idx (i + 1) then (1 : ℚ) else 0)) =
            ∏ i in Finset.range ds.length,
              (if rest i = idx (i + 1) then (1 : ℚ) else 0) := by
          refine Finset.prod_congr rfl (fun i _ => ?_)
          simp [idxCons]
        have h2 : idxCons a0 rest 0 = a0 := by simp [idxCons]
        rw [h1, h2, mul_assoc]
      calc (∑ a0 in Finset.range d, multiSum ds fun rest =>
              f (idxCons a0 rest) * ∏ i in Finset.range (ds.length + 1),
                (if idxCons a0 rest i = idx i then (1 : ℚ) else 0))
          = ∑ a0 in Finset.range d,
              (multiSum ds (fun rest => f (idxCons a0 rest) * ∏ i in Finset.range ds.length,
                (if rest i = idx (i + 1) then (1 : ℚ) else 0))) *
              (if a0 = idx 0 then (1 : ℚ) else 0) := by
            refine Finset.sum_congr rfl (fun a0 _ => ?_)
            rw [congrArg (multiSum ds) (funext fun rest => hsplit a0 rest)]
            exact multiSum_mul_right ds _ _
        _ = multiSum ds (fun rest => f (idxCons (idx 0) rest) * ∏ i in Finset.range ds.length,
              (if rest i = idx (i + 1) then (1 : ℚ) else 0)) := by
            rw [Finset.sum_eq_single (idx 0)]
            · simp
            · intro b _ hb
              simp [hb]
            · intro hmem
              exact absurd (Finset.mem_range.mpr (hidx 0 (by simp))) hmem
        _ = f (idxCons (idx 0) (fun j => if j < ds.length then idx (j + 1) else 0)) := by
            exact ih (fun i => idx (i + 1)) (fun i hi => by
              simpa using hidx (i + 1) (by simpa using hi)) _
        _ = _ := by
            refine congrArg f (funext fun j => ?_)
            simp only [List.length_cons]
            cases j with
            | zero => simp [idxCons]
            | succ j' =>
                simp only [idxCons, Nat.succ_ne_zero, if_false, Nat.succ_sub_one]
                by_cases hj : j' < ds.length
                · rw [if_pos hj, if_pos (by omega)]
                · rw [if_neg hj, if_neg (by omega)]

/-- Closed form of the successive-contraction loop: after processing the
first `qs.length` axes of a rank-`k` tensor, the result at `idx` sums over
one bound index per processed axis, with basis matrix `i` pairing its
second index with position `k - qs.length + i` of `idx`. -/
theorem project_spine (k : ℕ) (qs : List (ℕ × Mat)) :
    qs.length ≤ k → ∀ (T : Tensor) (idx : ℕ → ℕ),
      project k qs T idx =
        multiSum (qs.map Prod.fst) (fun a =>
          T (mixIdx qs.length a idx) *
          ∏ i in Finset.range qs.length,
            (qs.getD i dfltQ).2 (a i) (idx (k - qs.length + i))) := by
  induction qs with
  | nil =>
      intro _ T idx
      simp [project, multiSum, mixIdx_zero]
  | cons hd rest ih =>
      intro hk T idx
      have hk' : rest.length + 1 ≤ k := by simpa using hk
      have hr : rest.length ≤ k := by omega
      rw [show project k (hd :: rest) T = project k rest (contractFwd k hd.1 hd.2 T) from rfl]
      rw [ih hr (contractFwd k hd.1 hd.2 T) idx]
      show _ = ∑ b in Finset.range hd.1, multiSum (rest.map Prod.fst) (fun a =>
        T (mixIdx (rest.length + 1) (idxCons b a) idx) *
        ∏ i in Finset.range (rest.length + 1),
          ((hd :: rest).getD i dfltQ).2 (idxCons b a i) (idx (k - (rest.length + 1) + i)))
      have hmix : ∀ a : ℕ → ℕ,
          mixIdx rest.length a idx (k - 1) = idx (k - 1 - rest.length) := by
        intro a
        show (if k - 1 < rest.length then a (k - 1) else idx (k - 1 - rest.length)) = _
        rw [if_neg (by omega)]
      calc multiSum (rest.map Prod.fst) (fun a =>
              contractFwd k hd.1 hd.2 T (mixIdx rest.length a idx) *
              ∏ i in Finset.range rest.length,
                (rest.getD i dfltQ).2 (a i) (idx (k - rest.length + i)))
          = multiSum (rest.map Prod.fst) (fun a =>
              ∑ b in Finset.range hd.1,
                T (idxCons b (mixIdx rest.length a idx)) * hd.2 b (idx (k - 1 - rest.length)) *
                ∏ i in Finset.range rest.length,
                  (rest.getD i dfltQ).2 (a i) (idx (k - rest.length + i))) := by
            refine congrArg _ (funext fun a => ?_)
            rw [show contractFwd k hd.1 hd.2 T (mixIdx rest.length a idx) =
              ∑ b in Finset.range hd.1, T (idxCons b (mixIdx rest.length a idx)) *
                hd.2 b (mixIdx rest.length a idx (k - 1)) from rfl]
            rw [hmix a, Finset.sum_mul]
        _ = ∑ b in Finset.range hd.1, multiSum (rest.map Prod.fst) (fun a =>
              T (idxCons b (mixIdx rest.length a idx)) * hd.2 b (idx (k - 1 - rest.length)) *
              ∏ i in Finset.range rest.length,
                (rest.getD i dfltQ).2 (a i) (idx (k - rest.length + i))) :=
            multiSum_sum_comm _ _ _
        _ = _ := by
            refine Finset.sum_congr rfl (fun b _ => congrArg _ (funext fun a => ?_))
            rw [mixIdx_succ_cons, Finset.prod_range_succ']
            have hterm : ∀ i : ℕ,
                ((hd :: rest).getD (i + 1) dfltQ).2 (idxCons b a (i + 1))
                  (idx (k - (rest.length + 1) + (i + 1))) =
                (rest.getD i dfltQ).2 (a i) (idx (k - rest.length + i)) := by
              intro i
              have h1 : idxCons b a (i + 1) = a i := by simp [idxCons]
              have h2 : k - (rest.length + 1) + (i + 1) = k - rest.length + i := by omega
              rw [h1, h2]
              rfl
            have h0a : idxCons b a 0 = b := by simp [idxCons]
            have h0b : k - (rest.length + 1) + 0 = k - 1 - rest.length := by omega
            rw [Finset.prod_congr rfl (fun i _ => hterm i), h0a, h0b,
              show ((hd :: rest).getD 0 dfltQ) = hd from rfl]
            ring

theorem getD_map_fst (qs : List (ℕ × Mat)) (i : ℕ) (h : i < qs.length) :
    (qs.map Prod.fst).getD i 0 = (qs.getD i dfltQ).1 := by
  induction qs generalizing i with
  | nil => simp at h
  | cons hd rest ih =>
      cases i with
      | zero => rfl
      | succ i' =>
          have h' : i' < rest.length := by simpa using h
          exact ih i' h'

theorem getD_map_tr (qs : List (ℕ × Mat)) (i : ℕ) :
    (qs.map (fun dq => (dq.1, transposeM dq.2))).getD i dfltQ =
      ((qs.getD i dfltQ).1, transposeM (qs.getD i dfltQ).2) := by
  induction qs generalizing i with
  | nil => rfl
  | cons hd rest ih =>
      cases i with
      | zero => rfl
      | succ i' => exact ih i'

/-- Closed form of `SOAP.project` on a full list of basis matrices: the
result at `idx` is the multi-index contraction in which basis matrix `i`
pairs its first index with the summation variable of axis `i` and its
second index with position `i` of `idx` — axes come out in their original
order, each transformed by its own basis. -/
theorem project_closed (k : ℕ) (qs : List (ℕ × Mat)) (hlen : qs.length = k)
    (T : Tensor) (hT : Supported k T) (idx : ℕ → ℕ) :
    project k qs T idx =
      multiSum (qs.map Prod.fst) (fun a =>
        T a * ∏ i in Finset.range k, (qs.getD i dfltQ).2 (a i) (idx i)) := by
  subst hlen
  rw [project_spine qs.length qs le_rfl T idx]
  refine congrArg _ (funext fun a => ?_)
  have h1 : T (mixIdx qs.length a idx) = T a := by
    refine (hT _ _ (fun j hj => ?_)).symm
    show a j = mixIdx qs.length a idx j
    rw [show mixIdx qs.length a idx j = if j < qs.length then a j else idx (j - qs.length) from rfl,
      if_pos hj]
  have h2 : ∀ i ∈ Finset.range qs.length,
      (qs.getD i dfltQ).2 (a i) (idx (qs.length - qs.length + i)) =
        (qs.getD i dfltQ).2 (a i) (idx i) := by
    intro i _
    rw [Nat.sub_self, Nat.zero_add]
  rw [h1, Finset.prod_congr rfl h2]

theorem projectBack_eq_transpose (k : ℕ) (qs : List (ℕ × Mat)) (T : Tensor) :
    projectBack k qs T = project k (qs.map (fun dq => (dq.1, transposeM dq.2))) T := by
  show qs.foldl _ T = (qs.map _).foldl _ T
  rw [List.foldl_map]
  rfl

/-- Closed form of `SOAP.project_back`: same aligned contraction with each
basis matrix applied through its second index. -/
theorem projectBack_closed (k : ℕ) (qs : List (ℕ × Mat)) (hlen : qs.length = k)
    (T : Tensor) (hT : Supported k T) (idx : ℕ → ℕ) :
    projectBack k qs T idx =
      multiSum (qs.map Prod.fst) (fun a =>
        T a * ∏ i in Finset.range k, (qs.getD i dfltQ).2 (idx i) (a i)) := by
  rw [projectBack_eq_transpose]
  have hlen' : (qs.map (fun dq => (dq.1, transposeM dq.2))).length = k := by
    simpa using hlen
  rw [project_closed k _ hlen' T hT idx]
  have hfst : (qs.map (fun dq => (dq.1, transposeM dq.2))).map Prod.fst = qs.map Prod.fst := by
    rw [List.map_map]
    rfl
  rw [hfst]
  refine congrArg _ (funext fun a => ?_)
  exact congrArg (fun z => T a * z) (Finset.prod_congr rfl (fun i _ => by
    rw [getD_map_tr]
    rfl))

theorem project_supported (k : ℕ) (qs : List (ℕ × Mat)) (hlen : qs.length = k)
    (T : Tensor) (hT : Supported k T) : Supported k (project k qs T) := by
  intro f g hfg
  rw [project_closed k qs hlen T hT f, project_closed k qs hlen T hT g]
  refine congrArg _ (funext fun a => ?_)
  exact congrArg (fun z => T a * z) (Finset.prod_congr rfl (fun i hi => by
    rw [hfg i (Finset.mem_range.mp hi)]))

/-- C3: for any tensor `T` of rank `k` (shape given by the sizes in `qs`)
and any list of per-axis orthonormal square matrices `qs`, one per axis of
`T`, `projectBack (project T, Q), Q) = T`: projecting into the eigenbasis
coordinate system and projecting back is the identity whenever the
eigenbasis matrices are orthonormal (here: rows orthonormal on the leading
`d × d` block), at every in-range index. -/
theorem soap_projection_invertibility (k : ℕ) (qs : List (ℕ × Mat))
    (hlen : qs.length = k) (T : Tensor) (hT : Supported k T)
    (horth : ∀ i ∈ Finset.range k, ∀ a ∈ Finset.range (qs.getD i dfltQ).1,
      ∀ b ∈ Finset.range (qs.getD i dfltQ).1,
      (∑ x in Finset.range (qs.getD i dfltQ).1,
        (qs.getD i dfltQ).2 a x * (qs.getD i dfltQ).2 b x) = if a = b then (1 : ℚ) else 0)
    (idx : ℕ → ℕ) (hidx : ∀ i ∈ Finset.range k, idx i < (qs.getD i dfltQ).1) :
    projectBack k qs (project k qs T) idx = T idx := by
  have hds : (qs.map Prod.fst).length = k := by simpa using hlen
  rw [projectBack_closed k qs hlen (project k qs T) (project_supported k qs hlen T hT) idx]
  have hPb : (fun b => project k qs T b *
        ∏ i in Finset.range k, (qs.getD i dfltQ).2 (idx i) (b i))
      = fun b => (multiSum (qs.map Prod.fst) (fun a => T a *
          ∏ i in Finset.range k, (qs.getD i dfltQ).2 (a i) (b i))) *
          ∏ i in Finset.range k, (qs.getD i dfltQ).2 (idx i) (b i) := by
    funext b
    rw [project_closed k qs hlen T hT b]
  rw [hPb]
  rw [congrArg (multiSum (qs.map Prod.fst)) (funext fun b =>
    (multiSum_mul_right (qs.map Prod.fst)
      (∏ i in Finset.range k, (qs.getD i dfltQ).2 (idx i) (b i))
      (fun a => T a * ∏ i in Finset.range k, (qs.getD i dfltQ).2 (a i) (b i))).symm)]
  rw [multiSum_multiSum_comm (qs.map Prod.fst) (qs.map Prod.fst)
    (fun b a => (T a * ∏ i in Finset.range k, (qs.getD i dfltQ).2 (a i) (b i)) *
      ∏ i in Finset.range k, (qs.getD i dfltQ).2 (idx i) (b i))]
  have hcollapse : multiSum (qs.map Prod.fst) (fun a => multiSum (qs.map Prod.fst)
        (fun b => (T a * ∏ i in Finset.range k, (qs.getD i dfltQ).2 (a i) (b i)) *
          ∏ i in Finset.range k, (qs.getD i dfltQ).2 (idx i) (b i)))
      = multiSum (qs.map Prod.fst)
        (fun a => T a * ∏ i in Finset.range k, (if a i = idx i then (1 : ℚ) else 0)) := by
    refine multiSum_congr _ _ _ (fun a ha => ?_)
    have h1 : (fun b : ℕ → ℕ =>
            (T a * ∏ i in Finset.range k, (qs.getD i dfltQ).2 (a i) (b i)) *
          ∏ i in Finset.range k, (qs.getD i dfltQ).2 (idx i) (b i))
        = fun b : ℕ → ℕ => T a * ∏ i in Finset.range (qs.map Prod.fst).length,
            ((qs.getD i dfltQ).2 (a i) (b i) * (qs.getD i dfltQ).2 (idx i) (b i)) := by
      funext b
      rw [mul_assoc, ← Finset.prod_mul_distrib, hds]
    refine (congrArg (multiSum (qs.map Prod.fst)) h1).trans ?_
    refine (multiSum_mul_left (qs.map Prod.fst) (T a) _).trans ?_
    refine congrArg (fun z => T a * z) ?_
    refine (multiSum_prod (qs.map Prod.fst)
      (fun i x => (qs.getD i dfltQ).2 (a i) x * (qs.getD i dfltQ).2 (idx i) x)).trans ?_
    rw [← hds]
    refine Finset.prod_congr rfl (fun i hi => ?_)
    have hik : i < (qs.map Prod.fst).length := Finset.mem_range.mp hi
    have hikk : i ∈ Finset.range k := Finset.mem_range.mpr (by rw [← hds]; exact hik)
    have hd_eq : (qs.map Prod.fst).getD i 0 = (qs.getD i dfltQ).1 :=
      getD_map_fst qs i (by simpa using hik)
    rw [hd_eq]
    exact horth i hikk (a i) (Finset.mem_range.mpr (hd_eq ▸ ha.1 i hik)) (idx i)
      (Finset.mem_range.mpr (hidx i hikk))
  rw [hcollapse]
  have hidx' : ∀ i, i < (qs.map Prod.fst).length → idx i < (qs.map Prod.fst).getD i 0 := by
    intro i hi
    rw [getD_map_fst qs i (by simpa using hi)]
    exact hidx i (Finset.mem_range.mpr (by rw [← hds]; exact hi))
  rw [show (fun a : ℕ → ℕ => T a * ∏ i in Finset.range k, (if a i = idx i then (1 : ℚ) else 0))
      = (fun a => T a * ∏ i in Finset.range (qs.map Prod.fst).length,
          (if a i = idx i then (1 : ℚ) else 0)) from by rw [hds]]
  rw [multiSum_delta (qs.map Prod.fst) idx hidx' T]
  refine hT _ _ (fun j hj => ?_)
  rw [if_pos (show j < (qs.map Prod.fst).length from by rw [hds]; exact hj)]

/- Structural lemmas about the three phases of `updatePreconditioner`. -/

theorem covUpdate_step (shape : List ℕ) (grad : Tensor) (st : PState) :
    (covUpdate shape grad st).step = st.step := rfl

theorem covUpdate_exp_avg (shape : List ℕ) (grad : Tensor) (st : PState) :
    (covUpdate shape grad st).exp_avg = st.exp_avg := rfl

theorem covUpdate_exp_avg_sq (shape : List ℕ) (grad : Tensor) (st : PState) :
    (covUpdate shape grad st).exp_avg_sq = st.exp_avg_sq := rfl

theorem covUpdate_GG (shape : List ℕ) (grad : Tensor) (st : PState) :
    (covUpdate shape grad st).GG = (List.range shape.length).map (fun i =>
      lerpM (st.GG.getD i zeroMat) (outerContract shape i grad) (1 - st.shampoo_beta)) := rfl

theorem covUpdate_Q (shape : List ℕ) (grad : Tensor) (st : PState) :
    (covUpdate shape grad st).Q = st.Q := rfl

theorem covUpdate_freq (shape : List ℕ) (grad : Tensor) (st : PState) :
    (covUpdate shape grad st).precondition_frequency = st.precondition_frequency := rfl

theorem maybeInitQ_step (B : Backend) (shape : List ℕ) (st : PState) :
    (maybeInitQ B shape st).step = st.step := by
  obtain ⟨s0, e1, e2, gg, qf, pf, sb⟩ := st
  cases qf <;> rfl

theorem maybeInitQ_exp_avg (B : Backend) (shape : List ℕ) (st : PState) :
    (maybeInitQ B shape st).exp_avg = st.exp_avg := by
  obtain ⟨s0, e1, e2, gg, qf, pf, sb⟩ := st
  cases qf <;> rfl

theorem maybeInitQ_exp_avg_sq (B : Backend) (shape : List ℕ) (st : PState) :
    (maybeInitQ B shape st).exp_avg_sq = st.exp_avg_sq := by
  obtain ⟨s0, e1, e2, gg, qf, pf, sb⟩ := st
  cases qf <;> rfl

theorem maybeInitQ_GG (B : Backend) (shape : List ℕ) (st : PState) :
    (maybeInitQ B shape st).GG = st.GG := by
  obtain ⟨s0, e1, e2, gg, qf, pf, sb⟩ := st
  cases qf <;> rfl

theorem maybeInitQ_freq (B : Backend) (shape : List ℕ) (st : PState) :
    (maybeInitQ B shape st).precondition_frequency = st.precondition_frequency := by
  obtain ⟨s0, e1, e2, gg, qf, pf, sb⟩ := st
  cases qf <;> rfl

theorem maybeInitQ_of_some (B : Backend) (shape : List ℕ) (st : PState)
    (qs : List Mat) (h : st.Q = some qs) : maybeInitQ B shape st = st := by
  obtain ⟨s0, e1, e2, gg, qf, pf, sb⟩ := st
  cases h
  rfl

theorem maybeInitQ_of_none (B : Backend) (shape : List ℕ) (st : PState)
    (h : st.Q = none) :
    maybeInitQ B shape st = { st with Q := some (getOrthogonalMatrix B shape st.GG) } := by
  obtain ⟨s0, e1, e2, gg, qf, pf, sb⟩ := st
  cases h
  rfl

theorem maybeRefresh_step (B : Backend) (shape : List ℕ) (st : PState) :
    (maybeRefresh B shape st).step = st.step := by
  unfold maybeRefresh
  split <;> rfl

theorem maybeRefresh_exp_avg (B : Backend) (shape : List ℕ) (st : PState) :
    (maybeRefresh B shape st).exp_avg = st.exp_avg := by
  unfold maybeRefresh
  split <;> rfl

theorem maybeRefresh_GG (B : Backend) (shape : List ℕ) (st : PState) :
    (maybeRefresh B shape st).GG = st.GG := by
  unfold maybeRefresh
  split <;> rfl

theorem maybeRefresh_of_fire (B : Backend) (shape : List ℕ) (st : PState)
    (h : 0 < st.step ∧ st.step % st.precondition_frequency = 0) :
    maybeRefresh B shape st = { st with
      Q := some ((getOrthogonalMatrixQR B shape st).1)
      exp_avg_sq := (getOrthogonalMatrixQR B shape st).2 } := by
  unfold maybeRefresh
  rw [if_pos h]

theorem maybeRefresh_of_skip (B : Backend) (shape : List ℕ) (st : PState)
    (h : ¬(0 < st.step ∧ st.step % st.precondition_frequency = 0)) :
    maybeRefresh B shape st = st := by
  unfold maybeRefresh
  rw [if_neg h]

theorem updatePre_step (B : Backend) (shape : List ℕ) (grad : Tensor) (st : PState) :
    (updatePreconditioner B shape grad st).step = st.step := by
  unfold updatePreconditioner
  rw [maybeRefresh_step, maybeInitQ_step, covUpdate_step]

theorem updatePre_exp_avg (B : Backend) (shape : List ℕ) (grad : Tensor) (st : PState) :
    (updatePreconditioner B shape grad st).exp_avg = st.exp_avg := by
  unfold updatePreconditioner
  rw [maybeRefresh_exp_avg, maybeInitQ_exp_avg, covUpdate_exp_avg]

theorem updatePre_GG (B : Backend) (shape : List ℕ) (grad : Tensor) (st : PState) :
    (updatePreconditioner B shape grad st).GG =
      (List.range shape.length).map (fun i =>
        lerpM (st.GG.getD i zeroMat) (outerContract shape i grad) (1 - st.shampoo_beta)) := by
  unfold updatePreconditioner
  rw [maybeRefresh_GG, maybeInitQ_GG, covUpdate_GG]

theorem updatePre_sq_zero (B : Backend) (shape : List ℕ) (grad : Tensor) (st : PState)
    (h0 : st.step = 0) :
    (updatePreconditioner B shape grad st).exp_avg_sq = st.exp_avg_sq := by
  unfold updatePreconditioner
  rw [maybeRefresh_of_skip, maybeInitQ_exp_avg_sq, covUpdate_exp_avg_sq]
  rw [maybeInitQ_step, covUpdate_step, h0]
  simp

/- Nonnegativity invariant for the projected second moment. -/

theorem lerpT_nonneg (x y : Tensor) (w : ℚ) (hw0 : 0 ≤ w) (hw1 : w ≤ 1)
    (hx : ∀ idx, 0 ≤ x idx) (hy : ∀ idx, 0 ≤ y idx) :
    ∀ idx, 0 ≤ lerpT x y w idx := by
  intro idx
  have he : lerpT x y w idx = (1 - w) * x idx + w * y idx := by
    show x idx + w * (y idx - x idx) = _
    ring
  rw [he]
  have h1 : 0 ≤ (1 - w) * x idx := mul_nonneg (by linarith) (hx idx)
  have h2 : 0 ≤ w * y idx := mul_nonneg hw0 (hy idx)
  linarith


theorem getQR_sq_nonneg (B : Backend) (shape : List ℕ) (st : PState)
    (h : ∀ idx, 0 ≤ st.exp_avg_sq idx) (idx : ℕ → ℕ) :
    0 ≤ (getOrthogonalMatrixQR B shape st).2 idx := by
  have H : ∀ (l : List ℕ) (acc : List Mat × Tensor), (∀ j, 0 ≤ acc.2 j) →
      ∀ j, 0 ≤ ((l.foldl (fun acc ind =>
        let r := qrStep B ind (shape.getD ind 0) (st.GG.getD ind zeroMat)
          ((st.Q.getD []).getD ind zeroMat) acc.2
        (acc.1 ++ [r.1], r.2)) acc).2) j := by
    intro l
    induction l with
    | nil => intro acc hacc j; exact hacc j
    | cons x xs ih =>
        intro acc hacc j
        rw [List.foldl_cons]
        refine ih _ ?_ j
        intro j'
        exact hacc _
  exact H (List.range shape.length) ([], st.exp_avg_sq) (fun j => h j) idx

theorem maybeRefresh_sq_nonneg (B : Backend) (shape : List ℕ) (st : PState)
    (h : ∀ idx, 0 ≤ st.exp_avg_sq idx) :
    ∀ idx, 0 ≤ (maybeRefresh B shape st).exp_avg_sq idx := by
  intro idx
  unfold maybeRefresh
  split
  · exact getQR_sq_nonneg B shape st h idx
  · exact h idx

theorem updatePre_sq_nonneg (B : Backend) (shape : List ℕ) (grad : Tensor) (st : PState)
    (h : ∀ idx, 0 ≤ st.exp_avg_sq idx) :
    ∀ idx, 0 ≤ (updatePreconditioner B shape grad st).exp_avg_sq idx := by
  intro idx
  unfold updatePreconditioner
  refine maybeRefresh_sq_nonneg B shape _ (fun j => ?_) idx
  rw [maybeInitQ_exp_avg_sq, covUpdate_exp_avg_sq]
  exact h j

/-- For an initialized state (`Q = some qs`), one call of `SOAP.step`
factors as the projected-Adam phase followed by `update_preconditioner`
applied to the result. -/
theorem stepOne_active_eq (H : Hyp) (B : Backend) (shape : List ℕ) (grad p : Tensor)
    (st : PState) (qs : List Mat) (h : st.Q = some qs) :
    stepOne H B shape (some grad) p (some st) =
      ((adamPhase H B shape qs grad p st).1,
        some (updatePreconditioner B shape grad (adamPhase H B shape qs grad p st).2)) := by
  obtain ⟨s0, e1, e2, gg, qf, pf, sb⟩ := st
  cases h
  rfl

theorem stepOne_skip_eq (H : Hyp) (B : Backend) (shape : List ℕ) (grad p : Tensor)
    (st : PState) (h : st.Q = none) :
    stepOne H B shape (some grad) p (some st) = (p, some st) := by
  obtain ⟨s0, e1, e2, gg, qf, pf, sb⟩ := st
  cases h
  rfl

theorem stepOne_sq_nonneg (H : Hyp) (B : Backend) (shape : List ℕ)
    (hb0 : 0 ≤ H.beta2) (hb1 : H.beta2 ≤ 1)
    (g : Option Tensor) (p : Tensor) (stOpt : Option PState)
    (h : ∀ st, stOpt = some st → ∀ idx, 0 ≤ st.exp_avg_sq idx) :
    ∀ st', (stepOne H B shape g p stOpt).2 = some st' → ∀ idx, 0 ≤ st'.exp_avg_sq idx := by
  intro st' h' idx
  cases g with
  | none => exact h st' h' idx
  | some grad =>
      cases stOpt with
      | none =>
          have hx : updatePreconditioner B shape grad (freshState H shape) = st' :=
            Option.some.inj h'
          rw [← hx]
          exact updatePre_sq_nonneg B shape grad (freshState H shape)
            (fun j => le_refl 0) idx
      | some st =>
          have hst := h st rfl
          cases hq : st.Q with
          | none =>
              rw [stepOne_skip_eq H B shape grad p st hq] at h'
              have hx : st = st' := Option.some.inj h'
              rw [← hx]
              exact hst idx
          | some qs =>
              rw [stepOne_active_eq H B shape grad p st qs hq] at h'
              have hx : updatePreconditioner B shape grad
                  (adamPhase H B shape qs grad p st).2 = st' := Option.some.inj h'
              rw [← hx]
              refine updatePre_sq_nonneg B shape grad _ (fun j => ?_) idx
              show 0 ≤ lerpT st.exp_avg_sq
                (squareT (project shape.length (shape.zip qs) grad)) (1 - H.beta2) j
              exact lerpT_nonneg _ _ _ (by linarith) (by linarith) hst
                (fun j' => mul_self_nonneg _) j

theorem runSteps_sq_nonneg (H : Hyp) (B : Backend) (shape : List ℕ)
    (hb0 : 0 ≤ H.beta2) (hb1 : H.beta2 ≤ 1)
    (grads : List (Option Tensor)) (start : Tensor × Option PState)
    (h : ∀ st, start.2 = some st → ∀ idx, 0 ≤ st.exp_avg_sq idx) :
    ∀ st', (runSteps H B shape grads start).2 = some st' → ∀ idx, 0 ≤ st'.exp_avg_sq idx := by
  induction grads generalizing start with
  | nil => exact h
  | cons g gs ih =>
      intro st' h' idx
      refine ih (stepOne H B shape g start.1 start.2)
        (stepOne_sq_nonneg H B shape hb0 hb1 g start.1 start.2 h) st' ?_ idx
      exact h'

theorem getD_map_range {α : Type} (n : ℕ) (f : ℕ → α) (d : α) (i : ℕ) (h : i < n) :
    ((List.range n).map f).getD i d = f i := by
  simp [List.getD_eq_getElem?_getD, List.getElem?_map, List.getElem?_range, h]

theorem getD_const_zeroMat (l : List ℕ) (i : ℕ) :
    (l.map (fun _ => zeroMat)).getD i zeroMat = zeroMat := by
  induction l generalizing i with
  | nil => rfl
  | cons x xs ih =>
      cases i with
      | zero => rfl
      | succ i' => exact ih i'

theorem maybeRefresh_step_zero (B : Backend) (shape : List ℕ) (st : PState)
    (h : st.step = 0) : maybeRefresh B shape st = st := by
  refine maybeRefresh_of_skip B shape st ?_
  rw [h]
  simp

theorem Tlin_supported : Supported 1 Tlin := by
  intro f g hfg
  show ((f 0 : ℕ) : ℚ) = ((g 0 : ℕ) : ℚ)
  rw [hfg 0 Nat.one_pos]

theorem idMat_orth :
    ∀ i ∈ Finset.range 1, ∀ a ∈ Finset.range (([(1, idMat)] : List (ℕ × Mat)).getD i dfltQ).1,
      ∀ b ∈ Finset.range (([(1, idMat)] : List (ℕ × Mat)).getD i dfltQ).1,
      (∑ x in Finset.range (([(1, idMat)] : List (ℕ × Mat)).getD i dfltQ).1,
        (([(1, idMat)] : List (ℕ × Mat)).getD i dfltQ).2 a x *
        (([(1, idMat)] : List (ℕ × Mat)).getD i dfltQ).2 b x) =
      if a = b then (1 : ℚ) else 0 := by
  intro i hi a ha b hb
  have hi1 : i < 1 := Finset.mem_range.mp hi
  have hi0 : i = 0 := by omega
  subst hi0
  have ha1 : a < 1 := Finset.mem_range.mp ha
  have hb1 : b < 1 := Finset.mem_range.mp hb
  have ha0 : a = 0 := by omega
  have hb0 : b = 0 := by omega
  subst ha0
  subst hb0
  show (∑ x in Finset.range 1, idMat 0 x * idMat 0 x) = if (0 : ℕ) = (0 : ℕ) then (1 : ℚ) else 0
  rw [Finset.sum_range_one]
  norm_num [idMat]

/-- C1: for every update step on an already-initialized parameter state
(`Q = some qs`), the step factors as the projected-Adam phase (parameter
update computed from the existing preconditioner state only) followed by
`update_preconditioner` on the result: the covariance update and any
eigenbasis refresh with this step's gradient happen strictly after the
parameter value change, and the Adam phase leaves the covariance
accumulators and eigenbases exactly as they were before the step. -/
theorem soap_c1_update_ordering (H : Hyp) (B : Backend) (shape : List ℕ)
    (grad p : Tensor) (st : PState) (qs : List Mat) (h : st.Q = some qs) :
    stepOne H B shape (some grad) p (some st) =
      ((adamPhase H B shape qs grad p st).1,
        some (updatePreconditioner B shape grad (adamPhase H B shape qs grad p st).2)) ∧
    (adamPhase H B shape qs grad p st).2.GG = st.GG ∧
    (adamPhase H B shape qs grad p st).2.Q = st.Q :=
  ⟨stepOne_active_eq H B shape grad p st qs h, rfl, rfl⟩

theorem soap_c1_update_ordering_witness :
    stepOne H0 B0 [1] (some g3) zerosT (some pst1) =
      ((adamPhase H0 B0 [1] [idMat] g3 zerosT pst1).1,
        some (updatePreconditioner B0 [1] g3 (adamPhase H0 B0 [1] [idMat] g3 zerosT pst1).2)) ∧
    (adamPhase H0 B0 [1] [idMat] g3 zerosT pst1).2.GG = pst1.GG ∧
    (adamPhase H0 B0 [1] [idMat] g3 zerosT pst1).2.Q = pst1.Q :=
  soap_c1_update_ordering H0 B0 [1] g3 zerosT pst1 [idMat] rfl

/-- C2 (counterexample): the claim says that after the very first observed
gradient the state is Initialized with the eigenbasis still unset, the
eigenbasis being built only on the following step.  On the concrete first
call below, the state returned by the first call already has its eigenbasis
set (`state['Q']` is a list, not `None`), because `update_preconditioner`
runs at the end of the first call and builds `Q` from the just-updated
covariance accumulators (src/soap.py lines 73 and 134-135). -/
theorem soap_c2_counterexample :
    (((stepOne H0 B0 [1] (some g3) zerosT none).2.getD pstDflt).Q).isSome = true := rfl

/-- C2 (amended): on the very first observed gradient, the state is created
with `step = 0` and zero moments, no parameter update is performed, the
covariance accumulators absorb the first gradient, and the eigenbasis is
built at the end of that same first call from those covariance
accumulators. -/
theorem soap_c2_amended (H : Hyp) (B : Backend) (shape : List ℕ) (grad p : Tensor) :
    ∃ st', stepOne H B shape (some grad) p none = (p, some st') ∧
      st'.step = 0 ∧ st'.exp_avg = zerosT ∧ st'.exp_avg_sq = zerosT ∧
      st'.GG = (List.range shape.length).map (fun i =>
        lerpM zeroMat (outerContract shape i grad)
          (1 - (if 0 ≤ H.shampoo_beta then H.shampoo_beta else H.beta2))) ∧
      st'.Q = some (getOrthogonalMatrix B shape st'.GG) := by
  refine ⟨updatePreconditioner B shape grad (freshState H shape), rfl, ?_, ?_, ?_, ?_, ?_⟩
  · rw [updatePre_step]
    rfl
  · rw [updatePre_exp_avg]
    rfl
  · rw [updatePre_sq_zero B shape grad _ rfl]
    rfl
  · rw [updatePre_GG]
    refine congrArg (fun f => List.map f (List.range shape.length)) (funext fun i => ?_)
    show lerpM ((shape.map (fun _ => zeroMat)).getD i zeroMat) (outerContract shape i grad)
        (1 - (if 0 ≤ H.shampoo_beta then H.shampoo_beta else H.beta2)) = _
    rw [getD_const_zeroMat]
  · have hGGr : (updatePreconditioner B shape grad (freshState H shape)).GG =
        (covUpdate shape grad (freshState H shape)).GG := by
      rw [updatePre_GG, covUpdate_GG]
    rw [hGGr]
    show (maybeRefresh B shape (maybeInitQ B shape (covUpdate shape grad (freshState H shape)))).Q = _
    have hnone : (covUpdate shape grad (freshState H shape)).Q = none := rfl
    rw [maybeInitQ_of_none B shape _ hnone, maybeRefresh_step_zero]
    all_goals rfl

/-- C5: on every invocation of the covariance update, each accumulator
satisfies `GG[i]' = shampoo_beta * GG[i] + (1 - shampoo_beta) * C_i` where
`C_i[a, b]` is the contraction of the gradient with itself over every axis
except axis `i` (`outerContract`). -/
theorem soap_c5_covariance_blend (B : Backend) (shape : List ℕ) (grad : Tensor)
    (st : PState) (i : ℕ) (hi : i < shape.length) (a b : ℕ) :
    (updatePreconditioner B shape grad st).GG.getD i zeroMat a b =
      st.shampoo_beta * st.GG.getD i zeroMat a b +
      (1 - st.shampoo_beta) * outerContract shape i grad a b := by
  rw [updatePre_GG, getD_map_range shape.length _ zeroMat i hi]
  show st.GG.getD i zeroMat a b + (1 - st.shampoo_beta) *
      (outerContract shape i grad a b - st.GG.getD i zeroMat a b) = _
  ring

theorem soap_c5_covariance_blend_witness :
    (updatePreconditioner B0 [1] g3 pst1).GG.getD 0 zeroMat 0 0 =
      pst1.shampoo_beta * pst1.GG.getD 0 zeroMat 0 0 +
      (1 - pst1.shampoo_beta) * outerContract [1] 0 g3 0 0 :=
  soap_c5_covariance_blend B0 [1] g3 pst1 0 (by decide) 0 0

/-- C6: for a freshly created per-parameter state, the first update call
initializes the step counter to 0, allocates zero moment tensors, and
leaves the parameter's values completely unchanged. -/
theorem soap_c6_first_step_noop (H : Hyp) (B : Backend) (shape : List ℕ) (grad p : Tensor) :
    ∃ st', stepOne H B shape (some grad) p none = (p, some st') ∧
      st'.step = 0 ∧ st'.exp_avg = zerosT ∧ st'.exp_avg_sq = zerosT := by
  refine ⟨updatePreconditioner B shape grad (freshState H shape), rfl, ?_, ?_, ?_⟩
  · rw [updatePre_step]
    rfl
  · rw [updatePre_exp_avg]
    rfl
  · rw [updatePre_sq_zero B shape grad _ rfl]
    rfl

/-- C8: a parameter whose gradient is absent on a call is skipped entirely:
its value and its whole preconditioner state are returned unchanged and no
error is raised. -/
theorem soap_c8_absent_gradient_noop (H : Hyp) (B : Backend) (shape : List ℕ)
    (p : Tensor) (stOpt : Option PState) :
    stepOne H B shape none p stOpt = (p, stOpt) := rfl

/-- C4: for an initialized state, `update_preconditioner`'s periodic QR
refresh fires exactly when `step > 0` and `step % precondition_frequency
= 0` (otherwise the eigenbasis and the projected second moment are left
unchanged), and every iteration of the refresh applies to `exp_avg_sq`
along its axis the very same permutation — the descending argsort of the
estimated eigenvalues `diag(Qᵀ·GG[i]·Q)` — that it applies to the columns
of `eigenbasis[i]` before the power-iteration/QR step. -/
theorem soap_c4_refresh_permutation (B : Backend) (shape : List ℕ) (grad : Tensor)
    (st : PState) (qs : List Mat) (h : st.Q = some qs) :
    (¬(0 < st.step ∧ st.step % st.precondition_frequency = 0) →
        (updatePreconditioner B shape grad st).Q = some qs ∧
        (updatePreconditioner B shape grad st).exp_avg_sq = st.exp_avg_sq) ∧
    ((0 < st.step ∧ st.step % st.precondition_frequency = 0) →
        (updatePreconditioner B shape grad st).Q =
          some ((getOrthogonalMatrixQR B shape (covUpdate shape grad st)).1) ∧
        (updatePreconditioner B shape grad st).exp_avg_sq =
          (getOrthogonalMatrixQR B shape (covUpdate shape grad st)).2) ∧
    (∀ ind d : ℕ, ∀ m o : Mat, ∀ sq : Tensor,
        qrStep B ind d m o sq =
          (B.qr d (matMul d m (permCols (argsortDesc d (estEig d m o)) o)),
           axisPermute ind (argsortDesc d (estEig d m o)) sq)) := by
  have hcov : (covUpdate shape grad st).Q = some qs := (covUpdate_Q shape grad st).trans h
  have hinit : maybeInitQ B shape (covUpdate shape grad st) = covUpdate shape grad st :=
    maybeInitQ_of_some B shape _ qs hcov
  refine ⟨fun hc => ?_, fun hc => ?_, fun ind d m o sq => rfl⟩
  · unfold updatePreconditioner
    rw [hinit, maybeRefresh_of_skip]
    · exact ⟨hcov, covUpdate_exp_avg_sq shape grad st⟩
    · rw [covUpdate_step, covUpdate_freq]
      exact hc
  · unfold updatePreconditioner
    rw [hinit, maybeRefresh_of_fire]
    · exact ⟨rfl, rfl⟩
    · rw [covUpdate_step, covUpdate_freq]
      exact hc

theorem soap_c4_refresh_permutation_witness :
    (¬(0 < pst10.step ∧ pst10.step % pst10.precondition_frequency = 0) →
        (updatePreconditioner B0 [1] g3 pst10).Q = some [idMat] ∧
        (updatePreconditioner B0 [1] g3 pst10).exp_avg_sq = pst10.exp_avg_sq) ∧
    ((0 < pst10.step ∧ pst10.step % pst10.precondition_frequency = 0) →
        (updatePreconditioner B0 [1] g3 pst10).Q =
          some ((getOrthogonalMatrixQR B0 [1] (covUpdate [1] g3 pst10)).1) ∧
        (updatePreconditioner B0 [1] g3 pst10).exp_avg_sq =
          (getOrthogonalMatrixQR B0 [1] (covUpdate [1] g3 pst10)).2) ∧
    (∀ ind d : ℕ, ∀ m o : Mat, ∀ sq : Tensor,
        qrStep B0 ind d m o sq =
          (B0.qr d (matMul d m (permCols (argsortDesc d (estEig d m o)) o)),
           axisPermute ind (argsortDesc d (estEig d m o)) sq)) :=
  soap_c4_refresh_permutation B0 [1] g3 pst10 [idMat] rfl

/-- C7: on every update step after the initialization step (`Q` set), the
step counter increases by exactly 1, and the parameter moves by
`parameter - lr * sqrt(1 - beta2 ^ n) / (1 - beta1 ^ n) *
projectBack(project(firstMoment) / (sqrt(secondMoment) + eps))` where `n`
is the post-increment step count and the moments are the just-updated
EMAs. -/
theorem soap_c7_bias_corrected_update (H : Hyp) (B : Backend) (shape : List ℕ)
    (grad p : Tensor) (st : PState) (qs : List Mat) (h : st.Q = some qs) :
    ∃ st', stepOne H B shape (some grad) p (some st) =
        ((fun idx => p idx -
          H.lr * B.sqrtFn (1 - H.beta2 ^ (st.step + 1)) / (1 - H.beta1 ^ (st.step + 1)) *
          projectBack shape.length (shape.zip qs) (fun j =>
            project shape.length (shape.zip qs) (lerpT st.exp_avg grad (1 - H.beta1)) j /
            (B.sqrtFn (lerpT st.exp_avg_sq
              (squareT (project shape.length (shape.zip qs) grad)) (1 - H.beta2) j) + H.eps))
            idx),
          some st') ∧ st'.step = st.step + 1 := by
  refine ⟨updatePreconditioner B shape grad (adamPhase H B shape qs grad p st).2, ?_, ?_⟩
  · rw [stepOne_active_eq H B shape grad p st qs h]
    refine congrArg (fun z => (z,
      some (updatePreconditioner B shape grad (adamPhase H B shape qs grad p st).2))) ?_
    have key : ∀ (s : ℚ) (ng : Tensor),
        (fun idx => p idx + (-s) * ng idx) = (fun idx => p idx - s * ng idx) := by
      intro s ng
      funext idx
      ring
    exact key (H.lr * B.sqrtFn (1 - H.beta2 ^ (st.step + 1)) / (1 - H.beta1 ^ (st.step + 1)))
      (projectBack shape.length (shape.zip qs) (fun j =>
        project shape.length (shape.zip qs) (lerpT st.exp_avg grad (1 - H.beta1)) j /
        (B.sqrtFn (lerpT st.exp_avg_sq
          (squareT (project shape.length (shape.zip qs) grad)) (1 - H.beta2) j) + H.eps)))
  · rw [updatePre_step]
    rfl

theorem soap_c7_bias_corrected_update_witness :
    ∃ st', stepOne H0 B0 [1] (some g3) zerosT (some pst1) =
        ((fun idx => zerosT idx -
          H0.lr * B0.sqrtFn (1 - H0.beta2 ^ (pst1.step + 1)) / (1 - H0.beta1 ^ (pst1.step + 1)) *
          projectBack (List.length [1]) (List.zip [1] [idMat]) (fun j =>
            project (List.length [1]) (List.zip [1] [idMat])
              (lerpT pst1.exp_avg g3 (1 - H0.beta1)) j /
            (B0.sqrtFn (lerpT pst1.exp_avg_sq
              (squareT (project (List.length [1]) (List.zip [1] [idMat]) g3))
              (1 - H0.beta2) j) + H0.eps))
            idx),
          some st') ∧ st'.step = pst1.step + 1 :=
  soap_c7_bias_corrected_update H0 B0 [1] g3 zerosT pst1 [idMat] rfl

/-- C9: for every state reachable by running the optimizer from a fresh
parameter (any sequence of present/absent gradients), the projected second
moment `exp_avg_sq` is elementwise non-negative, so for any next gradient
the denominator `sqrt(exp_avg_sq') + eps` used in the normalized update is
elementwise at least `eps` and strictly positive: the elementwise division
never divides by zero.  (Hypotheses: `beta2 ∈ [0, 1]`, the backend square
root is non-negative on non-negative inputs, and `eps > 0`.) -/
theorem soap_c9_denominator_bounded (H : Hyp) (B : Backend) (shape : List ℕ)
    (hb0 : 0 ≤ H.beta2) (hb1 : H.beta2 ≤ 1)
    (hs : ∀ x : ℚ, 0 ≤ x → 0 ≤ B.sqrtFn x) (heps : 0 < H.eps)
    (grads : List (Option Tensor)) (p : Tensor) (st' : PState)
    (h : (runSteps H B shape grads (p, none)).2 = some st') :
    (∀ idx, 0 ≤ st'.exp_avg_sq idx) ∧
    ∀ (grad : Tensor) (idx : ℕ → ℕ),
      H.eps ≤ denomT B H.eps (lerpT st'.exp_avg_sq
        (squareT (project shape.length (shape.zip (st'.Q.getD [])) grad)) (1 - H.beta2)) idx ∧
      0 < denomT B H.eps (lerpT st'.exp_avg_sq
        (squareT (project shape.length (shape.zip (st'.Q.getD [])) grad)) (1 - H.beta2)) idx := by
  have hsq : ∀ idx, 0 ≤ st'.exp_avg_sq idx :=
    runSteps_sq_nonneg H B shape hb0 hb1 grads (p, none) (fun st hst => nomatch hst) st' h
  refine ⟨hsq, fun grad idx => ?_⟩
  have hl : 0 ≤ lerpT st'.exp_avg_sq
      (squareT (project shape.length (shape.zip (st'.Q.getD [])) grad)) (1 - H.beta2) idx :=
    lerpT_nonneg _ _ _ (by linarith) (by linarith) hsq (fun j => mul_self_nonneg _) idx
  have hd : 0 ≤ B.sqrtFn (lerpT st'.exp_avg_sq
      (squareT (project shape.length (shape.zip (st'.Q.getD [])) grad)) (1 - H.beta2) idx) :=
    hs _ hl
  have he : denomT B H.eps (lerpT st'.exp_avg_sq
      (squareT (project shape.length (shape.zip (st'.Q.getD [])) grad)) (1 - H.beta2)) idx =
      B.sqrtFn (lerpT st'.exp_avg_sq
        (squareT (project shape.length (shape.zip (st'.Q.getD [])) grad)) (1 - H.beta2) idx) +
      H.eps := rfl
  rw [he]
  constructor
  · linarith
  · linarith

theorem soap_c9_denominator_bounded_witness :
    0 ≤ ((runSteps H0 B0 [1] [some g3] (zerosT, none)).2.getD pstDflt).exp_avg_sq zeroIdx ∧
    (1 : ℚ) / 100000000 ≤ denomT B0 H0.eps (lerpT
      ((runSteps H0 B0 [1] [some g3] (zerosT, none)).2.getD pstDflt).exp_avg_sq
      (squareT (project (List.length [1])
        (List.zip [1] ((((runSteps H0 B0 [1] [some g3] (zerosT, none)).2.getD pstDflt).Q).getD []))
        g3)) (1 - H0.beta2)) zeroIdx := by
  have main := soap_c9_denominator_bounded H0 B0 [1] (by norm_num [H0]) (by norm_num [H0])
    (fun x hx => hx) (by norm_num [H0]) [some g3] zerosT
    ((runSteps H0 B0 [1] [some g3] (zerosT, none)).2.getD pstDflt) rfl
  exact ⟨main.1 zeroIdx, (main.2 g3 zeroIdx).1⟩

/-- C10: for a rank-`k` tensor and square per-axis basis matrices (sizes
matching the axes), both `project` and `projectBack` keep the axes in
their original order: the successive contractions, each consuming the
current leading axis and appending the result at the end, compose to the
aligned multi-index contraction in which axis `i` of the result corresponds
to axis `i` of the input transformed by basis `i` (through its first index
for `project`, its second index for `projectBack`). -/
theorem soap_c10_axis_alignment (k : ℕ) (qs : List (ℕ × Mat)) (hlen : qs.length = k)
    (T : Tensor) (hT : Supported k T) :
    (∀ idx, project k qs T idx = multiSum (qs.map Prod.fst) (fun a =>
        T a * ∏ i in Finset.range k, (qs.getD i dfltQ).2 (a i) (idx i))) ∧
    (∀ idx, projectBack k qs T idx = multiSum (qs.map Prod.fst) (fun a =>
        T a * ∏ i in Finset.range k, (qs.getD i dfltQ).2 (idx i) (a i))) :=
  ⟨fun idx => project_closed k qs hlen T hT idx,
   fun idx => projectBack_closed k qs hlen T hT idx⟩

theorem soap_c10_axis_alignment_witness :
    project 1 [(1, idMat)] Tlin zeroIdx =
      multiSum ([(1, idMat)].map Prod.fst) (fun a =>
        Tlin a * ∏ i in Finset.range 1, (([(1, idMat)] : List (ℕ × Mat)).getD i dfltQ).2
          (a i) (zeroIdx i)) ∧
    projectBack 1 [(1, idMat)] Tlin zeroIdx =
      multiSum ([(1, idMat)].map Prod.fst) (fun a =>
        Tlin a * ∏ i in Finset.range 1, (([(1, idMat)] : List (ℕ × Mat)).getD i dfltQ).2
          (zeroIdx i) (a i)) :=
  ⟨(soap_c10_axis_alignment 1 [(1, idMat)] rfl Tlin Tlin_supported).1 zeroIdx,
   (soap_c10_axis_alignment 1 [(1, idMat)] rfl Tlin Tlin_supported).2 zeroIdx⟩

theorem soap_projection_invertibility_witness :
    projectBack 1 [(1, idMat)] (project 1 [(1, idMat)] Tlin) zeroIdx = Tlin zeroIdx :=
  soap_projection_invertibility 1 [(1, idMat)] rfl Tlin Tlin_supported idMat_orth
    zeroIdx (fun i hi => by
      have hi1 : i < 1 := Finset.mem_range.mp hi
      have hi0 : i = 0 := by omega
      subst hi0
      exact Nat.one_pos)
